import Mathlib

/-!
Shallow embedding of `convert.cpp` (fgygi/convert): a unit-conversion
program storing units in a graph of nodes with adjacency lists of weighted,
possibly inverted edges, and converting values by depth-first search.

Numeric values (C `double`) are modelled as exact rationals `ℚ`; machine
strings as `String`.  The C program's pointer-linked node list is modelled
as a `List Node` keyed by the (unique) node name; an edge stores the name
of its target node.  The global mutable state of the search (`found`,
`result`, and the per-node `visited` flags) is threaded explicitly, and the
C `exit(EXIT_FAILURE)` calls are modelled by an `Except` error, one
constructor per distinct fatal message site.  The recursive DFS `connect`
is given a fuel parameter (one unit per nested call); `convert` supplies
`number of nodes + 1`, which the lemmas show can never run out in the
situations the claims are about.
-/

namespace ConvertProg

/-- Fatal error kinds; each corresponds to one `exit(EXIT_FAILURE)` site in
the C source: zero conversion factor in `add_edge`, unknown unit in
`add_edge` or `convert`, exhausted search in `convert`, division by zero in
`connect`.  `OutOfFuel` is an artifact of the fuel-based embedding of the
recursive DFS. -/
inductive Err where
  | ZeroFactor
  | UnknownUnit
  | NoConversionPath
  | DivisionByZero
  | OutOfFuel
  deriving Repr, DecidableEq

/-- Mirrors `struct edge`: target node (by name), conversion factor,
inversion flag. -/
structure Edge where
  to_node : String
  factor : ℚ
  inverse : Bool
  deriving Repr, DecidableEq

/-- Mirrors `struct node`: short name, long name, adjacency list, visited
marker.  Nodes are identified by `name`. -/
structure Node where
  name : String
  long_name : String
  adj_list : List Edge
  visited : Bool
  deriving Repr, DecidableEq

/-- The global `unit_list`: head of the list is the most recently added
node. -/
abbrev Graph := List Node

/-- Mirrors `find_node`: walk the list, return the first node whose name
matches. -/
def find_node (name : String) (list : Graph) : Option Node :=
  list.find? (fun t => t.name == name)

/-- Mirrors `add_node`: if the name already exists, only a warning is
printed and the list is unchanged; otherwise a fresh unvisited node with an
empty adjacency list is pushed at the head of `unit_list`. -/
def add_node (new_name new_long_name : String) (unit_list : Graph) : Graph :=
  match find_node new_name unit_list with
  | some _ => unit_list
  | none =>
      { name := new_name, long_name := new_long_name,
        adj_list := [], visited := false } :: unit_list

/-- Mirrors the listing loop in `main` (invoked when no conversion is
requested): walk `unit_list` from its head, producing each node's
(name, long_name) pair. -/
def list_nodes (g : Graph) : List (String × String) :=
  g.map (fun t => (t.name, t.long_name))

/-- Mirrors `add_edge`: reject a zero factor, then resolve both ends, then
push the forward edge (factor `fac12`, flag `inversion`) at the head of
`name1`'s adjacency list and the reverse edge (factor `1/fac12` when not
inverted, `fac12` when inverted, same flag) at the head of `name2`'s. -/
def add_edge (name1 : String) (fac12 : ℚ) (name2 : String) (inversion : Bool)
    (g : Graph) : Except Err Graph :=
  if fac12 = 0 then .error .ZeroFactor
  else
    match find_node name1 g with
    | none => .error .UnknownUnit
    | some _ =>
      match find_node name2 g with
      | none => .error .UnknownUnit
      | some _ =>
        let g1 : Graph := g.map (fun t =>
          if t.name = name1 then
            { t with adj_list := ⟨name2, fac12, inversion⟩ :: t.adj_list }
          else t)
        let g2 : Graph := g1.map (fun t =>
          if t.name = name2 then
            { t with adj_list :=
                ⟨name1, if inversion then fac12 else 1/fac12, inversion⟩ :: t.adj_list }
          else t)
        .ok g2

/-- State threaded through the DFS: the node list (whose `visited` flags
`connect` mutates) and the globals `found` and `result`. -/
structure St where
  g : Graph
  found : Bool
  result : ℚ
  deriving Repr, DecidableEq

/-- Mirrors `n1->visited = TRUE` (by-name update of the node list). -/
def mark_visited (name : String) (g : Graph) : Graph :=
  g.map (fun t => if t.name = name then { t with visited := true } else t)

/-- Adjacency list of the node named `x` ([] when no such node, which does
not happen for graphs built by `add_node`/`add_edge`). -/
def edgesOf (x : String) (g : Graph) : List Edge :=
  ((find_node x g).map Node.adj_list).getD []

/-- Mirrors the edge loop of `connect`: for each edge `t` whose (currently)
unvisited target exists, recurse (through `rec`) with value
`factor / val` (aborting when `val = 0`) if the edge is inverted, and
`factor * val` otherwise; an abort propagates immediately, skipping all
remaining edges. -/
def connectEdges (rec : String → ℚ → St → Except Err St) :
    List Edge → ℚ → St → Except Err St
  | [], _, s => .ok s
  | t :: rest, val, s =>
    match find_node t.to_node s.g with
    | none => connectEdges rec rest val s
    | some m =>
      if m.visited then connectEdges rec rest val s
      else
        match (if t.inverse then
                 (if val = 0 then Except.error Err.DivisionByZero
                  else rec t.to_node (t.factor / val) s)
               else rec t.to_node (t.factor * val) s) with
        | .error e => .error e
        | .ok s' => connectEdges rec rest val s'

/-- Mirrors `connect(n1, n2, val)`: when the destination is reached record
`result = val`, `found = TRUE` (unconditionally); mark `n1` visited; then
walk `n1`'s adjacency list, recursing into each unvisited neighbour.  The
fuel counts nested invocations; `convert` supplies enough that it never
reaches 0 there. -/
def connect : Nat → String → String → ℚ → St → Except Err St
  | 0, _, _, _, _ => .error .OutOfFuel
  | fuel+1, n1, n2, val, s =>
    let s1 : St := if n1 = n2 then { s with found := true, result := val } else s
    let s2 : St := { s1 with g := mark_visited n1 s1.g }
    connectEdges (fun m v s => connect fuel m n2 v s) (edgesOf n1 s2.g) val s2

/-- Mirrors `convert(value, from_unit, to_unit)`: resolve both units
(fatal `UnknownUnit` on failure), set `found = FALSE`, run `connect` from
the source node, and fail with `NoConversionPath` when the search finishes
without having found the target.  The (possibly further marked) node list
is returned alongside the result so that sequential calls can be chained
the way repeated calls against the same global graph would behave. -/
def convert (g : Graph) (value : ℚ) (from_unit to_unit : String) :
    Except Err (ℚ × Graph) :=
  match find_node from_unit g with
  | none => .error .UnknownUnit
  | some _ =>
    match find_node to_unit g with
    | none => .error .UnknownUnit
    | some _ =>
      match connect (g.length + 1) from_unit to_unit value ⟨g, false, 0⟩ with
      | .error e => .error e
      | .ok s => if s.found then .ok (s.result, s.g) else .error .NoConversionPath

/-- Modelled from the spec (§4.2, first-found-path rule): the depth-first
search that explores each node's relations in adjacency-list order (most
recently inserted first, since `add_edge` pushes at the head) and stops at
the first path reaching the target, returning the value accumulated along
it.  This is the reference definition the code's full search is compared
against for the first-found-path-wins claim. -/
def specFirstEdges (rec : String → ℚ → Graph → Option ℚ × Graph) :
    List Edge → ℚ → Graph → Option ℚ × Graph
  | [], _, g => (none, g)
  | t :: rest, val, g =>
    match find_node t.to_node g with
    | none => specFirstEdges rec rest val g
    | some m =>
      if m.visited then specFirstEdges rec rest val g
      else
        match rec t.to_node (if t.inverse then t.factor / val else t.factor * val) g with
        | (some r, g') => (some r, g')
        | (none, g') => specFirstEdges rec rest val g'

/-- Modelled from the spec (§4.2): first-found DFS, node level.  Reaching
the target immediately returns the accumulated value; otherwise the node is
marked and its relations are tried in order, the first successful recursion
winning. -/
def specFirst : Nat → String → String → ℚ → Graph → Option ℚ × Graph
  | 0, _, _, _, g => (none, g)
  | fuel+1, n1, n2, val, g =>
    if n1 = n2 then (some val, g)
    else
      let g2 := mark_visited n1 g
      specFirstEdges (fun m v h => specFirst fuel m n2 v h) (edgesOf n1 g2) val g2

/-- Value accumulated along the first path from `a` to `b` that the
spec-side first-found DFS reaches, starting from value `v`. -/
def spec_first_value (g : Graph) (v : ℚ) (a b : String) : Option ℚ :=
  (specFirst (g.length + 1) a b v g).1

/-- All visited markers clear (the state of a graph just built by
`add_node`/`add_edge`, before any conversion). -/
def Fresh (g : Graph) : Prop := ∀ n ∈ g, n.visited = false

/-- Every stored factor is nonzero (the §3 invariant, enforced by
`add_edge`'s zero-factor check). -/
def NonzeroFactors (g : Graph) : Prop :=
  ∀ n ∈ g, ∀ e ∈ n.adj_list, e.factor ≠ 0

/-- The node named `x` exists and carries a set visited marker. -/
def visitedIn (g : Graph) (x : String) : Prop :=
  ∃ m, find_node x g = some m ∧ m.visited = true

/-- Connectivity by a chain of relations, following stored edges. -/
inductive Reaches (g : Graph) : String → String → Prop where
  | refl (x : String) : Reaches g x x
  | step {x z : String} (t : Edge) :
      t ∈ edgesOf x g → Reaches g t.to_node z → Reaches g x z

/-- Number of not-yet-visited nodes (termination measure of the DFS). -/
def unvisitedCount (g : Graph) : Nat :=
  g.countP (fun n => !n.visited)

/-- Pointwise relation between a node and its state later in the search:
identity except that the visited marker may have been set. -/
def NodeMono (a b : Node) : Prop :=
  b.name = a.name ∧ b.long_name = a.long_name ∧
    b.adj_list = a.adj_list ∧ (a.visited = true → b.visited = true)

/-- The search only sets visited markers: node list unchanged except for
monotone visited flags. -/
def GMono (g g' : Graph) : Prop := List.Forall₂ NodeMono g g'

/-- The whole graph obtained by registering, in order, the given
(id, long_name) records through `add_node` (what the definition-file loop of
`main` does for a stream of node records). -/
def buildNodes (l : List (String × String)) : Graph :=
  l.foldl (fun g p => add_node p.1 p.2 g) []

instance {ε α : Type} [DecidableEq ε] [DecidableEq α] :
    DecidableEq (Except ε α) := fun x y =>
  match x, y with
  | .ok a, .ok b =>
      if h : a = b then .isTrue (by rw [h])
      else .isFalse (by intro hc; cases hc; exact h (Eq.refl _))
  | .error a, .error b =>
      if h : a = b then .isTrue (by rw [h])
      else .isFalse (by intro hc; cases hc; exact h (Eq.refl _))
  | .ok _, .error _ => .isFalse (fun hc => Except.noConfusion hc)
  | .error _, .ok _ => .isFalse (fun hc => Except.noConfusion hc)

instance (g : Graph) : Decidable (Fresh g) := by
  unfold Fresh; infer_instance

instance (g : Graph) : Decidable (NonzeroFactors g) := by
  unfold NonzeroFactors; infer_instance

/-! Basic facts about `find_node` and `mark_visited`. -/

theorem find_node_name {x : String} {g : Graph} {n : Node}
    (h : find_node x g = some n) : n.name = x := by
  have := List.find?_some h
  simpa using this

theorem find_node_mem {x : String} {g : Graph} {n : Node}
    (h : find_node x g = some n) : n ∈ g :=
  List.mem_of_find?_eq_some h

theorem find_node_map (h : Node → Node) (hn : ∀ t, (h t).name = t.name)
    (x : String) (g : Graph) :
    find_node x (g.map h) = (find_node x g).map h := by
  induction g with
  | nil => rfl
  | cons a l ih =>
      cases hx : (a.name == x) with
      | true => simp [find_node, List.find?, hn, hx]
      | false =>
          have hx' : ((h a).name == x) = false := by rw [hn]; exact hx
          simpa [find_node, List.find?, hx', hx] using ih

theorem mark_find (x y : String) (g : Graph) :
    find_node x (mark_visited y g) =
      (find_node x g).map
        (fun t => if t.name = y then { t with visited := true } else t) := by
  unfold mark_visited
  exact find_node_map _ (fun t => by by_cases h : t.name = y <;> simp [h]) x g

theorem mark_visitedIn_self {x : String} {g : Graph} {n : Node}
    (h : find_node x g = some n) : visitedIn (mark_visited x g) x := by
  refine ⟨{ n with visited := true }, ?_, rfl⟩
  rw [mark_find, h]
  simp [find_node_name h]

theorem mark_not_visitedIn {x y : String} {g : Graph}
    (hxy : x ≠ y) (h : ¬ visitedIn g x) : ¬ visitedIn (mark_visited y g) x := by
  intro ⟨m, hm, hv⟩
  rw [mark_find] at hm
  cases hfind : find_node x g with
  | none => rw [hfind] at hm; simp at hm
  | some n =>
      rw [hfind] at hm
      simp only [Option.map_some'] at hm
      rw [if_neg (by rw [find_node_name hfind]; exact hxy)] at hm
      injection hm with hm
      exact h ⟨n, hfind, by rw [hm]; exact hv⟩

theorem mark_edgesOf (x y : String) (g : Graph) :
    edgesOf x (mark_visited y g) = edgesOf x g := by
  unfold edgesOf
  rw [mark_find]
  cases find_node x g with
  | none => rfl
  | some n => by_cases h : n.name = y <;> simp [h]

/-! Facts about `GMono`, the only-sets-visited-markers relation. -/

theorem nodeMono_refl (a : Node) : NodeMono a a :=
  ⟨Eq.refl _, Eq.refl _, Eq.refl _, id⟩

theorem GMono.refl (g : Graph) : GMono g g := by
  induction g with
  | nil => exact List.Forall₂.nil
  | cons a l ih => exact List.Forall₂.cons (nodeMono_refl a) ih

theorem unvisitedCount_cons (a : Node) (l : Graph) :
    unvisitedCount (a :: l) =
      (if a.visited then 0 else 1) + unvisitedCount l := by
  cases h : a.visited <;> simp [unvisitedCount, List.countP_cons, h, Nat.add_comm]

theorem GMono.trans {g₁ g₂ g₃ : Graph} (h₁ : GMono g₁ g₂) (h₂ : GMono g₂ g₃) :
    GMono g₁ g₃ := by
  induction h₁ generalizing g₃ with
  | nil => cases h₂; exact List.Forall₂.nil
  | cons hab _ ih =>
      cases h₂ with
      | cons hbc hl =>
          refine List.Forall₂.cons ?_ (ih hl)
          obtain ⟨h1, h2, h3, h4⟩ := hab
          obtain ⟨k1, k2, k3, k4⟩ := hbc
          exact ⟨k1.trans h1, k2.trans h2, k3.trans h3, fun hv => k4 (h4 hv)⟩

theorem mark_GMono (x : String) (g : Graph) : GMono g (mark_visited x g) := by
  unfold mark_visited GMono
  induction g with
  | nil => exact List.Forall₂.nil
  | cons a l ih =>
      refine List.Forall₂.cons ?_ ih
      by_cases h : a.name = x <;> simp [h, nodeMono_refl, NodeMono]

theorem GMono.find {g g' : Graph} (h : GMono g g') (x : String) :
    (find_node x g = none ∧ find_node x g' = none) ∨
      (∃ a b, find_node x g = some a ∧ find_node x g' = some b ∧ NodeMono a b) := by
  induction h with
  | nil => exact Or.inl ⟨Eq.refl _, Eq.refl _⟩
  | cons hab hl ih =>
      rename_i a b l l'
      cases hx : (a.name == x) with
      | true =>
          have hbx : (b.name == x) = true := by rw [hab.1]; exact hx
          exact Or.inr ⟨a, b, by simp [find_node, List.find?, hx],
            by simp [find_node, List.find?, hbx], hab⟩
      | false =>
          have hbx : (b.name == x) = false := by rw [hab.1]; exact hx
          simpa [find_node, List.find?, hx, hbx] using ih

theorem GMono.edgesOf {g g' : Graph} (h : GMono g g') (x : String) :
    edgesOf x g' = edgesOf x g := by
  rcases h.find x with ⟨h1, h2⟩ | ⟨a, b, h1, h2, hm⟩ <;>
    simp [ConvertProg.edgesOf, h1, h2]
  exact hm.2.2.1

theorem GMono.visitedIn {g g' : Graph} (h : GMono g g') {x : String}
    (hv : ConvertProg.visitedIn g x) : ConvertProg.visitedIn g' x := by
  obtain ⟨m, hm, hmv⟩ := hv
  rcases h.find x with ⟨h1, _⟩ | ⟨a, b, h1, h2, hmono⟩
  · rw [hm] at h1; cases h1
  · rw [hm] at h1; cases h1
    exact ⟨b, h2, hmono.2.2.2 hmv⟩

theorem GMono.count {g g' : Graph} (h : GMono g g') :
    unvisitedCount g' ≤ unvisitedCount g := by
  induction h with
  | nil => exact Nat.le.refl
  | cons hab hl ih =>
      rename_i a b l l'
      rw [unvisitedCount_cons, unvisitedCount_cons]
      cases hv : b.visited
      · have hav : a.visited = false := by
          cases hva : a.visited
          · rfl
          · rw [hab.2.2.2 hva] at hv; cases hv
        simp only [hav, if_false]
        omega
      · cases hav : a.visited <;> simp <;> omega

theorem GMono.mem_right {g g' : Graph} (h : GMono g g') {b : Node}
    (hb : b ∈ g') : ∃ a ∈ g, NodeMono a b := by
  induction h with
  | nil => cases hb
  | cons hab _ ih =>
      rcases List.mem_cons.mp hb with hb | hb
      · exact ⟨_, List.mem_cons_self _ _, hb ▸ hab⟩
      · obtain ⟨a, ha, hm⟩ := ih hb
        exact ⟨a, List.mem_cons_of_mem _ ha, hm⟩

theorem GMono.nonzero {g g' : Graph} (h : GMono g g')
    (hf : NonzeroFactors g) : NonzeroFactors g' := by
  intro n hn e he
  obtain ⟨a, ha, hm⟩ := h.mem_right hn
  exact hf a ha e (hm.2.2.1 ▸ he)

theorem GMono.reaches {g g' : Graph} (h : GMono g g') {x y : String}
    (hr : Reaches g x y) : Reaches g' x y := by
  induction hr with
  | refl => exact Reaches.refl _
  | step t ht _ ih => exact Reaches.step t (by rw [h.edgesOf]; exact ht) ih

theorem mark_count_le (x : String) (g : Graph) :
    unvisitedCount (mark_visited x g) ≤ unvisitedCount g :=
  (mark_GMono x g).count

theorem mark_visited_cons (y : String) (a : Node) (l : Graph) :
    mark_visited y (a :: l) =
      (if a.name = y then { a with visited := true } else a) :: mark_visited y l :=
  Eq.refl _

theorem mark_count_lt {x : String} {g : Graph} {n : Node}
    (h : find_node x g = some n) (hv : n.visited = false) :
    unvisitedCount (mark_visited x g) < unvisitedCount g := by
  induction g with
  | nil => cases h
  | cons a l ih =>
      rw [mark_visited_cons]
      cases hx : (a.name == x) with
      | true =>
          have ha : a = n := by simpa [find_node, List.find?, hx] using h
          have hax : a.name = x := by simpa using hx
          subst ha
          rw [if_pos hax, unvisitedCount_cons, unvisitedCount_cons, hv]
          have := mark_count_le x l
          simp only [Bool.false_eq_true, if_false, if_true]
          omega
      | false =>
          have h' : find_node x l = some n := by
            simpa [find_node, List.find?, hx] using h
          have hax : ¬ a.name = x := by simpa using hx
          rw [if_neg hax, unvisitedCount_cons, unvisitedCount_cons]
          have := ih h'
          omega

theorem count_le_length (g : Graph) : unvisitedCount g ≤ g.length :=
  List.countP_le_length _

theorem GMono.length {g g' : Graph} (h : GMono g g') : g'.length = g.length :=
  (List.Forall₂.length_eq h).symm

/-! Invariants of the DFS.  The lemmas about the edge loop `connectEdges`
are stated generically in the recursion function `rec` (instantiated with
`connect fuel` in the fuel inductions), with hypotheses describing how
`rec` behaves on the states at which the loop actually calls it. -/

theorem connect_step_cases (rec : String → ℚ → St → Except Err St)
    (t : Edge) (val : ℚ) (s : St) :
    (if t.inverse then
       (if val = 0 then Except.error Err.DivisionByZero
        else rec t.to_node (t.factor / val) s)
     else rec t.to_node (t.factor * val) s)
      = rec t.to_node (if t.inverse then t.factor / val else t.factor * val) s
    ∨ (t.inverse = true ∧ val = 0 ∧
       (if t.inverse then
          (if val = 0 then Except.error Err.DivisionByZero
           else rec t.to_node (t.factor / val) s)
        else rec t.to_node (t.factor * val) s) = Except.error Err.DivisionByZero) := by
  cases hi : t.inverse
  · left; simp
  · by_cases hv : val = 0
    · right; simp [hv]
    · left; simp [hv]

theorem connectEdges_inv (rec : String → ℚ → St → Except Err St)
    (hrec : ∀ m v s s', rec m v s = .ok s' →
      GMono s.g s'.g ∧ (s.found = true → s'.found = true)) :
    ∀ es val s s', connectEdges rec es val s = .ok s' →
      GMono s.g s'.g ∧ (s.found = true → s'.found = true) := by
  intro es
  induction es with
  | nil =>
      intro val s s' h
      simp only [connectEdges] at h
      cases h
      exact ⟨GMono.refl _, id⟩
  | cons t rest ih =>
      intro val s s' h
      cases hfind : find_node t.to_node s.g with
      | none =>
          simp only [connectEdges, hfind] at h
          exact ih val s s' h
      | some m =>
          cases hv : m.visited with
          | true =>
              simp only [connectEdges, hfind, hv, if_true] at h
              exact ih val s s' h
          | false =>
              simp only [connectEdges, hfind, hv, Bool.false_eq_true, if_false] at h
              rcases connect_step_cases rec t val s with hc | ⟨_, _, hc⟩
              · rw [hc] at h
                cases hstep : rec t.to_node
                    (if t.inverse then t.factor / val else t.factor * val) s with
                | error e =>
                    simp only [hstep] at h
                    exact Except.noConfusion h
                | ok s1 =>
                    simp only [hstep] at h
                    obtain ⟨hm1, hf1⟩ := hrec _ _ _ _ hstep
                    obtain ⟨hm2, hf2⟩ := ih val s1 s' h
                    exact ⟨hm1.trans hm2, fun hf => hf2 (hf1 hf)⟩
              · rw [hc] at h
                exact Except.noConfusion h

theorem connect_inv : ∀ fuel n1 n2 val s s',
    connect fuel n1 n2 val s = .ok s' →
      GMono s.g s'.g ∧ (s.found = true → s'.found = true) := by
  intro fuel
  induction fuel with
  | zero => intro n1 n2 val s s' h; simp [connect] at h
  | succ u ih =>
      intro n1 n2 val s s' h
      by_cases hn : n1 = n2
      · subst hn
        simp only [connect, if_true] at h
        obtain ⟨hm, hf⟩ := connectEdges_inv _ (fun m v s s' hr => ih m n1 v s s' hr)
          _ _ _ _ h
        exact ⟨(mark_GMono n1 s.g).trans hm, fun _ => hf (Eq.refl _)⟩
      · simp only [connect, hn, if_false] at h
        obtain ⟨hm, hf⟩ := connectEdges_inv _ (fun m v s s' hr => ih m n2 v s s' hr)
          _ _ _ _ h
        exact ⟨(mark_GMono n1 s.g).trans hm, hf⟩

theorem connectEdges_err (rec : String → ℚ → St → Except Err St)
    (hrec : ∀ m v s e, rec m v s = .error e →
      e = Err.OutOfFuel ∨ e = Err.DivisionByZero) :
    ∀ es val s e, connectEdges rec es val s = .error e →
      e = Err.OutOfFuel ∨ e = Err.DivisionByZero := by
  intro es
  induction es with
  | nil =>
      intro val s e h
      simp only [connectEdges] at h
      exact Except.noConfusion h
  | cons t rest ih =>
      intro val s e h
      cases hfind : find_node t.to_node s.g with
      | none =>
          simp only [connectEdges, hfind] at h
          exact ih val s e h
      | some m =>
          cases hv : m.visited with
          | true =>
              simp only [connectEdges, hfind, hv, if_true] at h
              exact ih val s e h
          | false =>
              simp only [connectEdges, hfind, hv, Bool.false_eq_true, if_false] at h
              rcases connect_step_cases rec t val s with hc | ⟨_, _, hc⟩
              · rw [hc] at h
                cases hstep : rec t.to_node
                    (if t.inverse then t.factor / val else t.factor * val) s with
                | error e' =>
                    simp only [hstep] at h
                    cases h
                    exact hrec _ _ _ _ hstep
                | ok s1 =>
                    simp only [hstep] at h
                    exact ih val s1 e h
              · rw [hc] at h
                injection h with h
                exact Or.inr h.symm

theorem GMono.reaches_rev {g g' : Graph} (h : GMono g g') {x y : String}
    (hr : Reaches g' x y) : Reaches g x y := by
  induction hr with
  | refl => exact Reaches.refl _
  | step t ht _ ih => exact Reaches.step t (by rw [← h.edgesOf]; exact ht) ih

theorem connect_err : ∀ fuel n1 n2 val s e,
    connect fuel n1 n2 val s = .error e →
      e = Err.OutOfFuel ∨ e = Err.DivisionByZero := by
  intro fuel
  induction fuel with
  | zero =>
      intro n1 n2 val s e h
      simp only [connect] at h
      injection h with h
      exact Or.inl h.symm
  | succ u ih =>
      intro n1 n2 val s e h
      by_cases hn : n1 = n2
      · subst hn
        simp only [connect, if_true] at h
        exact connectEdges_err _ (fun m v s e hr => ih m n1 v s e hr) _ _ _ _ h
      · simp only [connect, hn, if_false] at h
        exact connectEdges_err _ (fun m v s e hr => ih m n2 v s e hr) _ _ _ _ h

theorem connectEdges_stable (rec : String → ℚ → St → Except Err St) (n2 : String)
    (hrec : ∀ m v s s', m ≠ n2 → visitedIn s.g n2 → rec m v s = .ok s' →
      s'.found = s.found ∧ s'.result = s.result ∧ GMono s.g s'.g) :
    ∀ es val s s', visitedIn s.g n2 → connectEdges rec es val s = .ok s' →
      s'.found = s.found ∧ s'.result = s.result ∧ GMono s.g s'.g := by
  intro es
  induction es with
  | nil =>
      intro val s s' hvis h
      simp only [connectEdges] at h
      cases h
      exact ⟨Eq.refl _, Eq.refl _, GMono.refl _⟩
  | cons t rest ih =>
      intro val s s' hvis h
      cases hfind : find_node t.to_node s.g with
      | none =>
          simp only [connectEdges, hfind] at h
          exact ih val s s' hvis h
      | some m =>
          cases hv : m.visited with
          | true =>
              simp only [connectEdges, hfind, hv, if_true] at h
              exact ih val s s' hvis h
          | false =>
              simp only [connectEdges, hfind, hv, Bool.false_eq_true, if_false] at h
              have hne : t.to_node ≠ n2 := by
                intro he
                obtain ⟨k, hk, hkv⟩ := hvis
                rw [he, hk] at hfind
                cases hfind
                rw [hkv] at hv
                cases hv
              rcases connect_step_cases rec t val s with hc | ⟨_, _, hc⟩
              · rw [hc] at h
                cases hstep : rec t.to_node
                    (if t.inverse then t.factor / val else t.factor * val) s with
                | error e =>
                    simp only [hstep] at h
                    exact Except.noConfusion h
                | ok s1 =>
                    simp only [hstep] at h
                    obtain ⟨hf1, hr1, hm1⟩ := hrec _ _ _ _ hne hvis hstep
                    obtain ⟨hf2, hr2, hm2⟩ := ih val s1 s' (hm1.visitedIn hvis) h
                    exact ⟨hf2.trans hf1, hr2.trans hr1, hm1.trans hm2⟩
              · rw [hc] at h
                exact Except.noConfusion h

theorem connect_stable : ∀ fuel n1 n2 val s s', n1 ≠ n2 →
    visitedIn s.g n2 → connect fuel n1 n2 val s = .ok s' →
      s'.found = s.found ∧ s'.result = s.result ∧ GMono s.g s'.g := by
  intro fuel
  induction fuel with
  | zero =>
      intro n1 n2 val s s' _ _ h
      simp only [connect] at h
      exact Except.noConfusion h
  | succ u ih =>
      intro n1 n2 val s s' hn hvis h
      simp only [connect, hn, if_false] at h
      obtain ⟨hf, hr, hm⟩ := connectEdges_stable _ n2
        (fun m v s s' hm hv hr => ih m n2 v s s' hm hv hr)
        _ _ _ _ ((mark_GMono n1 s.g).visitedIn hvis) h
      exact ⟨hf, hr, (mark_GMono n1 s.g).trans hm⟩

theorem connectEdges_found_vis (rec : String → ℚ → St → Except Err St) (n2 : String)
    (hrecInv : ∀ m v s s', rec m v s = .ok s' →
      GMono s.g s'.g ∧ (s.found = true → s'.found = true))
    (hrecFV : ∀ m v s s', (∃ mn, find_node m s.g = some mn) → rec m v s = .ok s' →
      s'.found = true → s.found = true ∨ visitedIn s'.g n2) :
    ∀ es val s s', connectEdges rec es val s = .ok s' → s'.found = true →
      s.found = true ∨ visitedIn s'.g n2 := by
  intro es
  induction es with
  | nil =>
      intro val s s' h hf
      simp only [connectEdges] at h
      cases h
      exact Or.inl hf
  | cons t rest ih =>
      intro val s s' h hf
      cases hfind : find_node t.to_node s.g with
      | none =>
          simp only [connectEdges, hfind] at h
          exact ih val s s' h hf
      | some m =>
          cases hv : m.visited with
          | true =>
              simp only [connectEdges, hfind, hv, if_true] at h
              exact ih val s s' h hf
          | false =>
              simp only [connectEdges, hfind, hv, Bool.false_eq_true, if_false] at h
              rcases connect_step_cases rec t val s with hc | ⟨_, _, hc⟩
              · rw [hc] at h
                cases hstep : rec t.to_node
                    (if t.inverse then t.factor / val else t.factor * val) s with
                | error e =>
                    simp only [hstep] at h
                    exact Except.noConfusion h
                | ok s1 =>
                    simp only [hstep] at h
                    rcases ih val s1 s' h hf with h1 | h1
                    · rcases hrecFV _ _ _ _ ⟨m, hfind⟩ hstep h1 with h2 | h2
                      · exact Or.inl h2
                      · exact Or.inr ((connectEdges_inv rec hrecInv rest val s1 s' h).1.visitedIn h2)
                    · exact Or.inr h1
              · rw [hc] at h
                exact Except.noConfusion h

theorem connect_found_vis : ∀ fuel n1 n2 val s s',
    connect fuel n1 n2 val s = .ok s' → s'.found = true →
      s.found = true ∨ visitedIn s'.g n2 ∨ (n1 = n2 ∧ find_node n1 s.g = none) := by
  intro fuel
  induction fuel with
  | zero =>
      intro n1 n2 val s s' h _
      simp only [connect] at h
      exact Except.noConfusion h
  | succ u ih =>
      intro n1 n2 val s s' h hf
      by_cases hn : n1 = n2
      · subst hn
        simp only [connect, if_true] at h
        cases hfd : find_node n1 s.g with
        | none => exact Or.inr (Or.inr ⟨Eq.refl _, hfd ▸ Eq.refl _⟩)
        | some k =>
            have hvis : visitedIn (mark_visited n1 s.g) n1 := mark_visitedIn_self hfd
            have hmono := connectEdges_inv _
              (fun m v s s' hr => connect_inv u m n1 v s s' hr) _ _ _ _ h
            exact Or.inr (Or.inl (hmono.1.visitedIn hvis))
      · simp only [connect, hn, if_false] at h
        have := connectEdges_found_vis _ n2
          (fun m v s s' hr => connect_inv u m n2 v s s' hr)
          (fun m v s s' hex hr hfnd => by
            rcases ih m n2 v s s' hr hfnd with h1 | h1 | ⟨he, hnone⟩
            · exact Or.inl h1
            · exact Or.inr h1
            · obtain ⟨mn, hmn⟩ := hex
              rw [hnone] at hmn
              exact Option.noConfusion hmn)
          _ _ _ _ h hf
        exact this.imp id Or.inl

theorem connectEdges_notfound_unvis (rec : String → ℚ → St → Except Err St) (n2 : String)
    (hrecInv : ∀ m v s s', rec m v s = .ok s' →
      GMono s.g s'.g ∧ (s.found = true → s'.found = true))
    (hrecNU : ∀ m v s s', rec m v s = .ok s' → s'.found = false →
      ¬ visitedIn s.g n2 → ¬ visitedIn s'.g n2) :
    ∀ es val s s', connectEdges rec es val s = .ok s' → s'.found = false →
      ¬ visitedIn s.g n2 → ¬ visitedIn s'.g n2 := by
  intro es
  induction es with
  | nil =>
      intro val s s' h hf hnv
      simp only [connectEdges] at h
      cases h
      exact hnv
  | cons t rest ih =>
      intro val s s' h hf hnv
      cases hfind : find_node t.to_node s.g with
      | none =>
          simp only [connectEdges, hfind] at h
          exact ih val s s' h hf hnv
      | some m =>
          cases hv : m.visited with
          | true =>
              simp only [connectEdges, hfind, hv, if_true] at h
              exact ih val s s' h hf hnv
          | false =>
              simp only [connectEdges, hfind, hv, Bool.false_eq_true, if_false] at h
              rcases connect_step_cases rec t val s with hc | ⟨_, _, hc⟩
              · rw [hc] at h
                cases hstep : rec t.to_node
                    (if t.inverse then t.factor / val else t.factor * val) s with
                | error e =>
                    simp only [hstep] at h
                    exact Except.noConfusion h
                | ok s1 =>
                    simp only [hstep] at h
                    have hf1 : s1.found = false := by
                      cases hsf : s1.found
                      · rfl
                      · rw [(connectEdges_inv rec hrecInv rest val s1 s' h).2 hsf] at hf
                        cases hf
                    exact ih val s1 s' h hf (hrecNU _ _ _ _ hstep hf1 hnv)
              · rw [hc] at h
                exact Except.noConfusion h

theorem connect_notfound_unvis : ∀ fuel n1 n2 val s s',
    connect fuel n1 n2 val s = .ok s' → s'.found = false →
      ¬ visitedIn s.g n2 → ¬ visitedIn s'.g n2 := by
  intro fuel
  induction fuel with
  | zero =>
      intro n1 n2 val s s' h
      simp only [connect] at h
      exact Except.noConfusion h
  | succ u ih =>
      intro n1 n2 val s s' h hf hnv
      by_cases hn : n1 = n2
      · subst hn
        simp only [connect, if_true] at h
        have := (connectEdges_inv _
          (fun m v s s' hr => connect_inv u m n1 v s s' hr) _ _ _ _ h).2 (Eq.refl _)
        rw [this] at hf
        cases hf
      · simp only [connect, hn, if_false] at h
        exact connectEdges_notfound_unvis _ n2
          (fun m v s s' hr => connect_inv u m n2 v s s' hr)
          (fun m v s s' hr hfnd hnvv => ih m n2 v s s' hr hfnd hnvv)
          _ _ _ _ h hf
          (mark_not_visitedIn (fun he => hn he.symm) hnv)

theorem connectEdges_total (rec : String → ℚ → St → Except Err St) (F : Nat)
    (hrecInv : ∀ m v s s', rec m v s = .ok s' →
      GMono s.g s'.g ∧ (s.found = true → s'.found = true))
    (hrecNE : ∀ m v s, NonzeroFactors s.g → v ≠ 0 →
      (∃ mn, find_node m s.g = some mn ∧ mn.visited = false) →
      unvisitedCount (mark_visited m s.g) < F → ∃ s', rec m v s = .ok s') :
    ∀ es val s, NonzeroFactors s.g → val ≠ 0 → (∀ t ∈ es, t.factor ≠ 0) →
      unvisitedCount s.g ≤ F → ∃ s', connectEdges rec es val s = .ok s' := by
  intro es
  induction es with
  | nil =>
      intro val s _ _ _ _
      exact ⟨s, Eq.refl _⟩
  | cons t rest ih =>
      intro val s hnz hv hes hcount
      cases hfind : find_node t.to_node s.g with
      | none =>
          obtain ⟨s', hs'⟩ := ih val s hnz hv
            (fun e he => hes e (List.mem_cons_of_mem _ he)) hcount
          exact ⟨s', by simp only [connectEdges, hfind]; exact hs'⟩
      | some m =>
          cases hmv : m.visited with
          | true =>
              obtain ⟨s', hs'⟩ := ih val s hnz hv
                (fun e he => hes e (List.mem_cons_of_mem _ he)) hcount
              exact ⟨s', by simp only [connectEdges, hfind, hmv, if_true]; exact hs'⟩
          | false =>
              have hvf : (if t.inverse then t.factor / val else t.factor * val) ≠ 0 := by
                have hft : t.factor ≠ 0 := hes t (List.mem_cons_self _ _)
                cases t.inverse
                · simpa using mul_ne_zero hft hv
                · simpa using div_ne_zero hft hv
              have hcnt : unvisitedCount (mark_visited t.to_node s.g) < F :=
                lt_of_lt_of_le (mark_count_lt hfind hmv) hcount
              obtain ⟨s1, hs1⟩ := hrecNE t.to_node
                (if t.inverse then t.factor / val else t.factor * val) s hnz hvf
                ⟨m, hfind, hmv⟩ hcnt
              have hmono := (hrecInv _ _ _ _ hs1).1
              obtain ⟨s', hs'⟩ := ih val s1 (hmono.nonzero hnz) hv
                (fun e he => hes e (List.mem_cons_of_mem _ he))
                (le_trans hmono.count hcount)
              refine ⟨s', ?_⟩
              rcases connect_step_cases rec t val s with hc | ⟨_, hzero, _⟩
              · simp only [connectEdges, hfind, hmv, Bool.false_eq_true, if_false,
                  hc, hs1]
                exact hs'
              · exact absurd hzero hv

theorem connect_total : ∀ fuel n1 n2 val s, NonzeroFactors s.g → val ≠ 0 →
    unvisitedCount (mark_visited n1 s.g) < fuel →
      ∃ s', connect fuel n1 n2 val s = .ok s' := by
  intro fuel
  induction fuel with
  | zero =>
      intro n1 n2 val s _ _ hcount
      exact absurd hcount (Nat.not_lt_zero _)
  | succ u ih =>
      intro n1 n2 val s hnz hv hcount
      have hcount' : unvisitedCount (mark_visited n1 s.g) ≤ u :=
        Nat.lt_succ_iff.mp hcount
      by_cases hn : n1 = n2
      · subst hn
        obtain ⟨s', hs'⟩ := connectEdges_total _ u
          (fun m v s s' hr => connect_inv u m n1 v s s' hr)
          (fun m v s hz hvv hex hc => ih m n1 v s hz hvv hc)
          (edgesOf n1 (mark_visited n1 s.g)) val
          ⟨mark_visited n1 s.g, true, val⟩
          ((mark_GMono n1 s.g).nonzero hnz) hv
          (fun t ht => by
            unfold edgesOf at ht
            cases hfd : find_node n1 (mark_visited n1 s.g) with
            | none => rw [hfd] at ht; cases ht
            | some nd =>
                rw [hfd] at ht
                simp only [Option.map_some', Option.getD_some] at ht
                exact (mark_GMono n1 s.g).nonzero hnz nd (find_node_mem hfd) t ht)
          hcount'
        exact ⟨s', by simp only [connect, if_true]; exact hs'⟩
      · obtain ⟨s', hs'⟩ := connectEdges_total _ u
          (fun m v s s' hr => connect_inv u m n2 v s s' hr)
          (fun m v s hz hvv hex hc => ih m n2 v s hz hvv hc)
          (edgesOf n1 (mark_visited n1 s.g)) val
          ⟨mark_visited n1 s.g, s.found, s.result⟩
          ((mark_GMono n1 s.g).nonzero hnz) hv
          (fun t ht => by
            unfold edgesOf at ht
            cases hfd : find_node n1 (mark_visited n1 s.g) with
            | none => rw [hfd] at ht; cases ht
            | some nd =>
                rw [hfd] at ht
                simp only [Option.map_some', Option.getD_some] at ht
                exact (mark_GMono n1 s.g).nonzero hnz nd (find_node_mem hfd) t ht)
          hcount'
        exact ⟨s', by simp only [connect, hn, if_false]; exact hs'⟩

theorem connectEdges_unreach (rec : String → ℚ → St → Except Err St) (n2 : String)
    (hrecInv : ∀ m v s s', rec m v s = .ok s' →
      GMono s.g s'.g ∧ (s.found = true → s'.found = true))
    (hrecH : ∀ m v s s', rec m v s = .ok s' → ¬ Reaches s.g m n2 →
      s'.found = s.found) :
    ∀ es val s s', (∀ t ∈ es, ¬ Reaches s.g t.to_node n2) →
      connectEdges rec es val s = .ok s' → s'.found = s.found := by
  intro es
  induction es with
  | nil =>
      intro val s s' _ h
      simp only [connectEdges] at h
      cases h
      exact Eq.refl _
  | cons t rest ih =>
      intro val s s' hes h
      cases hfind : find_node t.to_node s.g with
      | none =>
          simp only [connectEdges, hfind] at h
          exact ih val s s' (fun e he => hes e (List.mem_cons_of_mem _ he)) h
      | some m =>
          cases hv : m.visited with
          | true =>
              simp only [connectEdges, hfind, hv, if_true] at h
              exact ih val s s' (fun e he => hes e (List.mem_cons_of_mem _ he)) h
          | false =>
              simp only [connectEdges, hfind, hv, Bool.false_eq_true, if_false] at h
              rcases connect_step_cases rec t val s with hc | ⟨_, _, hc⟩
              · rw [hc] at h
                cases hstep : rec t.to_node
                    (if t.inverse then t.factor / val else t.factor * val) s with
                | error e =>
                    simp only [hstep] at h
                    exact Except.noConfusion h
                | ok s1 =>
                    simp only [hstep] at h
                    have hm1 := (hrecInv _ _ _ _ hstep).1
                    have h1 : s1.found = s.found :=
                      hrecH _ _ _ _ hstep (hes t (List.mem_cons_self _ _))
                    have h2 : s'.found = s1.found :=
                      ih val s1 s'
                        (fun e he hre =>
                          hes e (List.mem_cons_of_mem _ he) (hm1.reaches_rev hre)) h
                    exact h2.trans h1
              · rw [hc] at h
                exact Except.noConfusion h

theorem connect_unreach : ∀ fuel n1 n2 val s s',
    connect fuel n1 n2 val s = .ok s' → ¬ Reaches s.g n1 n2 →
      s'.found = s.found := by
  intro fuel
  induction fuel with
  | zero =>
      intro n1 n2 val s s' h
      simp only [connect] at h
      exact Except.noConfusion h
  | succ u ih =>
      intro n1 n2 val s s' h hnr
      by_cases hn : n1 = n2
      · subst hn
        exact absurd (Reaches.refl n1) hnr
      · simp only [connect, hn, if_false] at h
        have hyp : ∀ t ∈ edgesOf n1 (mark_visited n1 s.g),
            ¬ Reaches (mark_visited n1 s.g) t.to_node n2 := by
          intro t ht hre
          rw [mark_edgesOf] at ht
          exact hnr (Reaches.step t ht ((mark_GMono n1 s.g).reaches_rev hre))
        exact connectEdges_unreach _ n2
          (fun m v s s' hr => connect_inv u m n2 v s s' hr)
          (fun m v s s' hr hnre => ih m n2 v s s' hr hnre)
          (edgesOf n1 (mark_visited n1 s.g)) val
          ⟨mark_visited n1 s.g, s.found, s.result⟩ s' hyp h

theorem connectEdges_refine (rec : String → ℚ → St → Except Err St)
    (srec : String → ℚ → Graph → Option ℚ × Graph) (n2 : String)
    (hrecE1 : ∀ m v s s', m ≠ n2 → visitedIn s.g n2 → rec m v s = .ok s' →
      s'.found = s.found ∧ s'.result = s.result ∧ GMono s.g s'.g)
    (hrecFV : ∀ m v s s', (∃ mn, find_node m s.g = some mn) → rec m v s = .ok s' →
      s'.found = true → s.found = true ∨ visitedIn s'.g n2)
    (hrecNU : ∀ m v s s', rec m v s = .ok s' → s'.found = false →
      ¬ visitedIn s.g n2 → ¬ visitedIn s'.g n2)
    (hrecRef : ∀ m v s s', s.found = false → ¬ visitedIn s.g n2 → rec m v s = .ok s' →
      (s'.found = true → (srec m v s.g).1 = some s'.result) ∧
      (s'.found = false → srec m v s.g = (none, s'.g))) :
    ∀ es val s s', s.found = false → ¬ visitedIn s.g n2 →
      connectEdges rec es val s = .ok s' →
      (s'.found = true → (specFirstEdges srec es val s.g).1 = some s'.result) ∧
      (s'.found = false → specFirstEdges srec es val s.g = (none, s'.g)) := by
  intro es
  induction es with
  | nil =>
      intro val s s' hf hnv h
      simp only [connectEdges] at h
      cases h
      refine ⟨fun hfd => ?_, fun _ => ?_⟩
      · rw [hf] at hfd; cases hfd
      · simp [specFirstEdges]
  | cons t rest ih =>
      intro val s s' hf hnv h
      cases hfind : find_node t.to_node s.g with
      | none =>
          simp only [connectEdges, hfind] at h
          simpa only [specFirstEdges, hfind] using ih val s s' hf hnv h
      | some m =>
          cases hv : m.visited with
          | true =>
              simp only [connectEdges, hfind, hv, if_true] at h
              simpa only [specFirstEdges, hfind, hv, if_true] using
                ih val s s' hf hnv h
          | false =>
              simp only [connectEdges, hfind, hv, Bool.false_eq_true, if_false] at h
              rcases connect_step_cases rec t val s with hc | ⟨_, _, hc⟩
              · rw [hc] at h
                cases hstep : rec t.to_node
                    (if t.inverse then t.factor / val else t.factor * val) s with
                | error e =>
                    simp only [hstep] at h
                    exact Except.noConfusion h
                | ok s1 =>
                    simp only [hstep] at h
                    obtain ⟨c1, c2⟩ := hrecRef _ _ _ _ hf hnv hstep
                    cases hs1f : s1.found with
                    | true =>
                        have hvis1 : visitedIn s1.g n2 := by
                          rcases hrecFV _ _ _ _ ⟨m, hfind⟩ hstep hs1f with h1 | h1
                          · rw [hf] at h1; cases h1
                          · exact h1
                        obtain ⟨hpf, hpr, _⟩ :=
                          connectEdges_stable rec n2 hrecE1 rest val s1 s' hvis1 h
                        have hc1 := c1 hs1f
                        cases hsp : srec t.to_node
                            (if t.inverse then t.factor / val else t.factor * val) s.g with
                        | mk o gs =>
                            rw [hsp] at hc1
                            simp only at hc1
                            subst hc1
                            refine ⟨fun _ => ?_, fun hfd => ?_⟩
                            · simp only [specFirstEdges, hfind, hv,
                                Bool.false_eq_true, if_false, hsp]
                              rw [hpr]
                            · rw [hfd] at hpf
                              rw [← hpf] at hs1f
                              cases hs1f
                    | false =>
                        have hc2 := c2 hs1f
                        have hnv1 : ¬ visitedIn s1.g n2 :=
                          hrecNU _ _ _ _ hstep hs1f hnv
                        have hrest := ih val s1 s' hs1f hnv1 h
                        refine ⟨fun hfd => ?_, fun hfd => ?_⟩
                        · simp only [specFirstEdges, hfind, hv,
                            Bool.false_eq_true, if_false, hc2]
                          exact hrest.1 hfd
                        · simp only [specFirstEdges, hfind, hv,
                            Bool.false_eq_true, if_false, hc2]
                          exact hrest.2 hfd
              · rw [hc] at h
                exact Except.noConfusion h

theorem connect_refine : ∀ fuel n1 n2 val s s', s.found = false →
    ¬ visitedIn s.g n2 → connect fuel n1 n2 val s = .ok s' →
      (s'.found = true → (specFirst fuel n1 n2 val s.g).1 = some s'.result) ∧
      (s'.found = false → specFirst fuel n1 n2 val s.g = (none, s'.g)) := by
  intro fuel
  induction fuel with
  | zero =>
      intro n1 n2 val s s' _ _ h
      simp only [connect] at h
      exact Except.noConfusion h
  | succ u ih =>
      intro n1 n2 val s s' hf hnv h
      by_cases hn : n1 = n2
      · subst hn
        simp only [connect, if_true] at h
        have hfound : s'.found = true := by
          exact (connectEdges_inv _
            (fun m v s s' hr => connect_inv u m n1 v s s' hr) _ _ _ _ h).2
            (Eq.refl _)
        refine ⟨fun _ => ?_, fun hfd => by rw [hfd] at hfound; cases hfound⟩
        simp only [specFirst, if_true]
        cases hfd : find_node n1 s.g with
        | none =>
            have hes : edgesOf n1 (mark_visited n1 s.g) = [] := by
              unfold edgesOf
              rw [mark_find, hfd]
              simp
            rw [hes] at h
            simp only [connectEdges] at h
            cases h
            rfl
        | some k =>
            have hvis : visitedIn (mark_visited n1 s.g) n1 :=
              mark_visitedIn_self hfd
            obtain ⟨_, hpr, _⟩ := connectEdges_stable _ n1
              (fun m v s s' hm hv hr => connect_stable u m n1 v s s' hm hv hr)
              _ _ _ _ hvis h
            rw [hpr]
      · simp only [connect, hn, if_false] at h
        have hnv2 : ¬ visitedIn (mark_visited n1 s.g) n2 :=
          mark_not_visitedIn (fun he => hn he.symm) hnv
        have := connectEdges_refine
          (fun m v s => connect u m n2 v s)
          (fun m v h => specFirst u m n2 v h) n2
          (fun m v s s' hm hvv hr => connect_stable u m n2 v s s' hm hvv hr)
          (fun m v s s' hex hr hfnd => by
            rcases connect_found_vis u m n2 v s s' hr hfnd with h1 | h1 | ⟨he, hnone⟩
            · exact Or.inl h1
            · exact Or.inr h1
            · obtain ⟨mn, hmn⟩ := hex
              rw [hnone] at hmn
              exact Option.noConfusion hmn)
          (fun m v s s' hr hfnd hnvv => connect_notfound_unvis u m n2 v s s' hr hfnd hnvv)
          (fun m v s s' hff hnvv hr => ih m n2 v s s' hff hnvv hr)
          (edgesOf n1 (mark_visited n1 s.g)) val
          ⟨mark_visited n1 s.g, s.found, s.result⟩ s'
          hf hnv2 h
        simpa only [specFirst, hn, if_false] using this

theorem forall₂_map_self (P : Node → Node → Prop) (h : Node → Node) :
    ∀ g : Graph, (∀ x ∈ g, P x (h x)) → List.Forall₂ P g (g.map h) := by
  intro g
  induction g with
  | nil => intro _; exact List.Forall₂.nil
  | cons a l ih =>
      intro hp
      exact List.Forall₂.cons (hp a (List.mem_cons_self _ _))
        (ih fun x hx => hp x (List.mem_cons_of_mem _ hx))

/-- C8: defining a relation with factor 0 fails fatally with `ZeroFactor`
at definition time, before the endpoints are even looked up and before any
relation is inserted (the error is returned instead of any modified
graph). -/
theorem claim8_zero_factor_rejected :
    ∀ (g : Graph) (a b : String) (inversion : Bool),
      add_edge a 0 b inversion g = .error .ZeroFactor := by
  intro g a b inversion
  simp [add_edge]

/-- C5: whenever the DFS is about to traverse an inverted relation (head of
the remaining edge list, target present and unvisited) while the
accumulated value is exactly 0, the edge loop returns the fatal
`DivisionByZero` error immediately — whatever the recursion `rec` would do,
and with the remaining edges `rest` never explored; and any error produced
by the search inside `convert` is returned as `convert`'s result, so no
alternate paths are attempted. -/
theorem claim5_zero_value_inverted_aborts :
    (∀ (rec : String → ℚ → St → Except Err St) (t : Edge) (rest : List Edge)
        (val : ℚ) (s : St) (m : Node),
        t.inverse = true → val = 0 →
        find_node t.to_node s.g = some m → m.visited = false →
        connectEdges rec (t :: rest) val s = .error .DivisionByZero) ∧
    (∀ (g : Graph) (v : ℚ) (a b : String) (e : Err),
        (find_node a g).isSome → (find_node b g).isSome →
        connect (g.length + 1) a b v ⟨g, false, 0⟩ = .error e →
        convert g v a b = .error e) := by
  constructor
  · intro rec t rest val s m hinv hval hfind hmv
    simp [connectEdges, hfind, hmv, hinv, hval]
  · intro g v a b e ha hb hcon
    obtain ⟨na, hna⟩ := Option.isSome_iff_exists.mp ha
    obtain ⟨nb, hnb⟩ := Option.isSome_iff_exists.mp hb
    simp [convert, hna, hnb, hcon]

/-- C5 witness: the first part instantiated at a one-node graph whose
pending edge is inverted with accumulated value 0, the second at the
two-node graph `uA —(2, INVERT)— uB` converted with value 0. -/
theorem claim5_witness :
    connectEdges (fun _ _ s => .ok s) [⟨"wB", 2, true⟩] 0
        ⟨[⟨"wB", "b", [], false⟩], false, 0⟩ = .error .DivisionByZero ∧
    convert [⟨"uB", "bb", [⟨"uA", 2, true⟩], false⟩,
             ⟨"uA", "aa", [⟨"uB", 2, true⟩], false⟩] 0 "uA" "uB"
      = .error .DivisionByZero := by
  constructor
  · exact claim5_zero_value_inverted_aborts.1 _ ⟨"wB", 2, true⟩ [] 0
      ⟨[⟨"wB", "b", [], false⟩], false, 0⟩ ⟨"wB", "b", [], false⟩
      (by decide) (by decide) (by decide) (by decide)
  · exact claim5_zero_value_inverted_aborts.2
      [⟨"uB", "bb", [⟨"uA", 2, true⟩], false⟩,
       ⟨"uA", "aa", [⟨"uB", 2, true⟩], false⟩] 0 "uA" "uB" .DivisionByZero
      (by decide) (by decide) (by decide)

/-- C7: `add_edge` fails with `UnknownUnit` exactly when the factor is
nonzero (the zero check comes first) and one of the endpoints is undefined;
`convert` fails with `UnknownUnit` exactly when one of the requested units
is undefined; and the DFS itself never produces `UnknownUnit` — so these
are the only `UnknownUnit` triggers. -/
theorem claim7_unknown_unit_triggers :
    (∀ (g : Graph) (a : String) (f : ℚ) (b : String) (inversion : Bool),
        add_edge a f b inversion g = .error .UnknownUnit ↔
          (f ≠ 0 ∧ (find_node a g = none ∨ find_node b g = none))) ∧
    (∀ (g : Graph) (v : ℚ) (a b : String),
        convert g v a b = .error .UnknownUnit ↔
          (find_node a g = none ∨ find_node b g = none)) ∧
    (∀ (fuel : Nat) (n1 n2 : String) (val : ℚ) (s : St),
        connect fuel n1 n2 val s ≠ .error .UnknownUnit) := by
  refine ⟨?_, ?_, ?_⟩
  · intro g a f b inversion
    constructor
    · intro h
      by_cases hf : f = 0
      · simp only [add_edge, if_pos hf] at h
        injection h with h
        exact Err.noConfusion h
      · refine ⟨hf, ?_⟩
        cases hfa : find_node a g with
        | none => exact Or.inl (Eq.refl _)
        | some na =>
            cases hfb : find_node b g with
            | none => exact Or.inr (Eq.refl _)
            | some nb =>
                simp only [add_edge, if_neg hf, hfa, hfb] at h
                exact Except.noConfusion h
    · intro ⟨hf, hor⟩
      rcases hor with hfa | hfb
      · simp [add_edge, hf, hfa]
      · cases hfa : find_node a g with
        | none => simp [add_edge, hf, hfa]
        | some na => simp [add_edge, hf, hfa, hfb]
  · intro g v a b
    constructor
    · intro h
      cases hfa : find_node a g with
      | none => exact Or.inl (Eq.refl _)
      | some na =>
          cases hfb : find_node b g with
          | none => exact Or.inr (Eq.refl _)
          | some nb =>
              exfalso
              simp only [convert, hfa, hfb] at h
              cases hcon : connect (g.length + 1) a b v ⟨g, false, 0⟩ with
              | error e =>
                  simp only [hcon] at h
                  injection h with h
                  rcases connect_err _ _ _ _ _ _ hcon with h1 | h1 <;>
                    (rw [h1] at h; exact Err.noConfusion h)
              | ok s1 =>
                  simp only [hcon] at h
                  by_cases hfo : s1.found = true
                  · simp only [hfo, if_true] at h
                    exact Except.noConfusion h
                  · simp only [hfo, if_false] at h
                    injection h with h
                    exact Err.noConfusion h
    · intro hor
      rcases hor with hfa | hfb
      · simp [convert, hfa]
      · cases hfa : find_node a g with
        | none => simp [convert, hfa]
        | some na => simp [convert, hfa, hfb]
  · intro fuel n1 n2 val s h
    rcases connect_err _ _ _ _ _ _ h with h1 | h1 <;> exact Err.noConfusion h1

/-- C7 witness: `add_edge` on an empty graph with nonzero factor, `convert`
on an empty graph, and the DFS at fuel 0, all instantiated concretely. -/
theorem claim7_witness :
    add_edge "wA" 1 "wB" false [] = .error .UnknownUnit ∧
    convert [] 1 "wA" "wB" = .error .UnknownUnit ∧
    connect 0 "wA" "wB" 1 ⟨[], false, 0⟩ ≠ .error .UnknownUnit := by
  refine ⟨?_, ?_, ?_⟩
  · exact (claim7_unknown_unit_triggers.1 [] "wA" 1 "wB" false).mpr
      ⟨one_ne_zero, Or.inl (Eq.refl _)⟩
  · exact (claim7_unknown_unit_triggers.2.1 [] 1 "wA" "wB").mpr
      (Or.inl (Eq.refl _))
  · exact claim7_unknown_unit_triggers.2.2 0 "wA" "wB" 1 ⟨[], false, 0⟩

/-- C2: with a nonzero factor and both (distinct) endpoints defined,
`add_edge` succeeds and changes the graph exactly by pushing the forward
relation (factor `f`, the given flag) at the head of `a`'s adjacency list
and the reverse relation (factor `1/f` when not inverted, `f` when
inverted, same flag) at the head of `b`'s; every other node, and every
other field of the two endpoint nodes, is unchanged. -/
theorem claim2_add_edge_two_relations :
    ∀ (g : Graph) (a : String) (f : ℚ) (b : String) (inversion : Bool),
      f ≠ 0 → a ≠ b → (find_node a g).isSome → (find_node b g).isSome →
      ∃ g', add_edge a f b inversion g = .ok g' ∧
        List.Forall₂ (fun old new =>
          new = if old.name = a
                then { old with adj_list := ⟨b, f, inversion⟩ :: old.adj_list }
                else if old.name = b
                then { old with adj_list :=
                    ⟨a, if inversion then f else 1/f, inversion⟩ :: old.adj_list }
                else old) g g' := by
  intro g a f b inversion hf hab ha hb
  obtain ⟨na, hna⟩ := Option.isSome_iff_exists.mp ha
  obtain ⟨nb, hnb⟩ := Option.isSome_iff_exists.mp hb
  refine ⟨((g.map (fun t =>
      if t.name = a then { t with adj_list := ⟨b, f, inversion⟩ :: t.adj_list }
      else t)).map (fun t =>
      if t.name = b then { t with adj_list :=
          ⟨a, if inversion then f else 1/f, inversion⟩ :: t.adj_list }
      else t)), ?_, ?_⟩
  · simp only [add_edge, if_neg hf, hna, hnb]
  · rw [List.map_map]
    refine forall₂_map_self _ _ g ?_
    intro x _
    have hba : ¬ b = a := fun h => hab h.symm
    by_cases hxa : x.name = a
    · have hxb : ¬ x.name = b := by rw [hxa]; exact hab
      simp [Function.comp, hxa, hxb, hab, hba]
    · by_cases hxb : x.name = b
      · simp [Function.comp, hxa, hxb, hab, hba]
      · simp [Function.comp, hxa, hxb, hab, hba]

/-- C2 witness: inserting a non-inverted relation with factor 3 between the
two nodes of a concrete two-node graph. -/
theorem claim2_witness :
    ∃ g', add_edge "wA" 3 "wB" false
        [⟨"wB", "b", [], false⟩, ⟨"wA", "a", [], false⟩] = .ok g' ∧
      List.Forall₂ (fun old new =>
        new = if old.name = "wA"
              then { old with adj_list := ⟨"wB", 3, false⟩ :: old.adj_list }
              else if old.name = "wB"
              then { old with adj_list :=
                  ⟨"wA", if false then 3 else 1/3, false⟩ :: old.adj_list }
              else old)
        [⟨"wB", "b", [], false⟩, ⟨"wA", "a", [], false⟩] g' :=
  claim2_add_edge_two_relations
    [⟨"wB", "b", [], false⟩, ⟨"wA", "a", [], false⟩] "wA" 3 "wB" false
    (by decide) (by decide) (by decide) (by decide)

/-- C3 counterexample: on the two-node graph `cA —(2)— cB`, a first
`convert` succeeds (value 2) and leaves both visited markers set; the same
request repeated against the graph state left behind then fails with
`NoConversionPath` although the two units are connected — visited markings
are not reset before a call and do affect the subsequent call. -/
theorem claim3_counterexample :
    add_edge "cA" 2 "cB" false (add_node "cB" "bb" (add_node "cA" "aa" []))
      = .ok [⟨"cB", "bb", [⟨"cA", 1/2, false⟩], false⟩,
             ⟨"cA", "aa", [⟨"cB", 2, false⟩], false⟩] ∧
    convert [⟨"cB", "bb", [⟨"cA", 1/2, false⟩], false⟩,
             ⟨"cA", "aa", [⟨"cB", 2, false⟩], false⟩] 1 "cA" "cB"
      = .ok (2, [⟨"cB", "bb", [⟨"cA", 1/2, false⟩], true⟩,
                 ⟨"cA", "aa", [⟨"cB", 2, false⟩], true⟩]) ∧
    convert [⟨"cB", "bb", [⟨"cA", 1/2, false⟩], true⟩,
             ⟨"cA", "aa", [⟨"cB", 2, false⟩], true⟩] 1 "cA" "cB"
      = .error .NoConversionPath :=
  ⟨by simp [add_edge, add_node, find_node, List.find?],
   by simp [convert, connect, connectEdges, edgesOf, find_node, List.find?,
      mark_visited],
   by simp [convert, connect, connectEdges, edgesOf, find_node, List.find?,
      mark_visited]⟩

/-- C3 amended: nodes are created with their visited marking unset, and a
`convert` call only ever sets markers, never clears them (`GMono`), so
markings made during call N persist into the graph used by call N+1; only
the first conversion on a freshly built graph is guaranteed to start with
every node unmarked. -/
theorem claim3_amended_visited_persists :
    (∀ (nm ln : String) (g : Graph), find_node nm g = none →
      add_node nm ln g =
        { name := nm, long_name := ln, adj_list := [], visited := false } :: g) ∧
    (∀ (g : Graph) (v : ℚ) (a b : String) (r : ℚ) (g' : Graph),
      convert g v a b = .ok (r, g') → GMono g g') := by
  constructor
  · intro nm ln g h
    simp [add_node, h]
  · intro g v a b r g' h
    cases hfa : find_node a g with
    | none =>
        simp only [convert, hfa] at h
        exact Except.noConfusion h
    | some na =>
        cases hfb : find_node b g with
        | none =>
            simp only [convert, hfa, hfb] at h
            exact Except.noConfusion h
        | some nb =>
            simp only [convert, hfa, hfb] at h
            cases hcon : connect (g.length + 1) a b v ⟨g, false, 0⟩ with
            | error e =>
                simp only [hcon] at h
                exact Except.noConfusion h
            | ok s1 =>
                simp only [hcon] at h
                by_cases hfo : s1.found = true
                · simp only [hfo, if_true] at h
                  injection h with h
                  injection h with h1 h2
                  rw [← h2]
                  exact (connect_inv _ _ _ _ _ _ hcon).1
                · simp only [hfo, if_false] at h
                  exact Except.noConfusion h

/-- C3 witness: the amended statement instantiated on concrete graphs. -/
theorem claim3_witness :
    add_node "wX" "x" [] =
      [{ name := "wX", long_name := "x", adj_list := [], visited := false }] ∧
    GMono [⟨"cB", "bb", [⟨"cA", 1/2, false⟩], false⟩,
           ⟨"cA", "aa", [⟨"cB", 2, false⟩], false⟩]
          [⟨"cB", "bb", [⟨"cA", 1/2, false⟩], true⟩,
           ⟨"cA", "aa", [⟨"cB", 2, false⟩], true⟩] :=
  ⟨claim3_amended_visited_persists.1 "wX" "x" [] (by decide),
   claim3_amended_visited_persists.2 _ 1 "cA" "cB" 2
     [⟨"cB", "bb", [⟨"cA", 1/2, false⟩], true⟩,
      ⟨"cA", "aa", [⟨"cB", 2, false⟩], true⟩]
     (by simp [convert, connect, connectEdges, edgesOf, find_node, List.find?,
        mark_visited])⟩

/-- C4 counterexample: registering `dA` then `dB` makes the listing show
`dB` first — the first-registered unit appears last, not first. -/
theorem claim4_counterexample :
    list_nodes (add_node "dB" "bb" (add_node "dA" "aa" []))
      = [("dB", "bb"), ("dA", "aa")] ∧
    list_nodes (add_node "dB" "bb" (add_node "dA" "aa" []))
      ≠ [("dA", "aa"), ("dB", "bb")] :=
  ⟨by decide, by decide⟩

theorem buildNodes_go :
    ∀ (l : List (String × String)) (g : Graph),
      (l.map Prod.fst).Nodup → (∀ p ∈ l, find_node p.1 g = none) →
      list_nodes (l.foldl (fun g p => add_node p.1 p.2 g) g)
        = l.reverse ++ list_nodes g := by
  intro l
  induction l with
  | nil => intro g _ _; simp
  | cons p rest ih =>
      intro g hnd hfr
      have hp : find_node p.1 g = none := hfr p (List.mem_cons_self _ _)
      have hstep : add_node p.1 p.2 g =
          { name := p.1, long_name := p.2, adj_list := [], visited := false } :: g := by
        simp [add_node, hp]
      simp only [List.foldl_cons, hstep]
      have hnd' : (rest.map Prod.fst).Nodup := (List.nodup_cons.mp hnd).2
      have hpn : p.1 ∉ rest.map Prod.fst := (List.nodup_cons.mp hnd).1
      have hfr' : ∀ q ∈ rest,
          find_node q.1
            ({ name := p.1, long_name := p.2, adj_list := [], visited := false } :: g)
            = none := by
        intro q hq
        have hqp : p.1 ≠ q.1 := by
          intro he
          exact hpn (he ▸ List.mem_map_of_mem Prod.fst hq)
        have hq0 : find_node q.1 g = none := hfr q (List.mem_cons_of_mem _ hq)
        have hb : ((p.1 : String) == q.1) = false := beq_eq_false_iff_ne.mpr hqp
        unfold find_node at hq0 ⊢
        simp only [List.find?, hb]
        exact hq0
      rw [ih _ hnd' hfr']
      simp [list_nodes]

/-- C4 amended: the listing produces every defined unit's (id, long_name)
pair in reverse registration order — the most recently registered unit
first, the first-registered unit last (for distinct unit ids; duplicate
registrations are dropped by `add_node`). -/
theorem claim4_amended_listing_reversed :
    ∀ l : List (String × String), (l.map Prod.fst).Nodup →
      list_nodes (buildNodes l) = l.reverse := by
  intro l hnd
  unfold buildNodes
  rw [buildNodes_go l [] hnd (fun p _ => Eq.refl _)]
  simp [list_nodes]

/-- C4 witness: registering `wA` then `wB` lists `wB` first. -/
theorem claim4_witness :
    list_nodes (buildNodes [("wA", "a"), ("wB", "b")])
      = [("wB", "b"), ("wA", "a")] :=
  claim4_amended_listing_reversed [("wA", "a"), ("wB", "b")] (by decide)

/-- C6 counterexample: units `eA`, `eB`, `eC` with the single (inverted)
relation `eA —(2, INVERT)— eC`; `eA` and `eB` are both defined and not
connected by any chain, yet `convert 0 eA eB` fails with `DivisionByZero`
(the doomed search traverses the inverted relation with accumulated value
0 first), not with `NoConversionPath`. -/
theorem claim6_counterexample :
    add_edge "eA" 2 "eC" true
        (add_node "eC" "cc" (add_node "eB" "bb" (add_node "eA" "aa" [])))
      = .ok [⟨"eC", "cc", [⟨"eA", 2, true⟩], false⟩,
             ⟨"eB", "bb", [], false⟩,
             ⟨"eA", "aa", [⟨"eC", 2, true⟩], false⟩] ∧
    ¬ Reaches [⟨"eC", "cc", [⟨"eA", 2, true⟩], false⟩,
               ⟨"eB", "bb", [], false⟩,
               ⟨"eA", "aa", [⟨"eC", 2, true⟩], false⟩] "eA" "eB" ∧
    convert [⟨"eC", "cc", [⟨"eA", 2, true⟩], false⟩,
             ⟨"eB", "bb", [], false⟩,
             ⟨"eA", "aa", [⟨"eC", 2, true⟩], false⟩] 0 "eA" "eB"
      = .error .DivisionByZero ∧
    convert [⟨"eC", "cc", [⟨"eA", 2, true⟩], false⟩,
             ⟨"eB", "bb", [], false⟩,
             ⟨"eA", "aa", [⟨"eC", 2, true⟩], false⟩] 0 "eA" "eB"
      ≠ .error .NoConversionPath := by
  refine ⟨by decide, ?_, by decide, by decide⟩
  intro hr
  have key : ∀ x y,
      Reaches [⟨"eC", "cc", [⟨"eA", 2, true⟩], false⟩,
               ⟨"eB", "bb", [], false⟩,
               ⟨"eA", "aa", [⟨"eC", 2, true⟩], false⟩] x y →
      (x = "eA" ∨ x = "eC") → (y = "eA" ∨ y = "eC") := by
    intro x y h
    induction h with
    | refl z => exact id
    | step t ht hrec ih =>
        intro hx
        rcases hx with hx | hx
        · rw [hx] at ht
          have he : edgesOf "eA"
              [⟨"eC", "cc", [⟨"eA", 2, true⟩], false⟩,
               ⟨"eB", "bb", [], false⟩,
               ⟨"eA", "aa", [⟨"eC", 2, true⟩], false⟩] = [⟨"eC", 2, true⟩] := by decide
          rw [he] at ht
          have := List.mem_singleton.mp ht
          exact ih (by rw [this]; exact Or.inr (Eq.refl _))
        · rw [hx] at ht
          have he : edgesOf "eC"
              [⟨"eC", "cc", [⟨"eA", 2, true⟩], false⟩,
               ⟨"eB", "bb", [], false⟩,
               ⟨"eA", "aa", [⟨"eC", 2, true⟩], false⟩] = [⟨"eA", 2, true⟩] := by decide
          rw [he] at ht
          have := List.mem_singleton.mp ht
          exact ih (by rw [this]; exact Or.inl (Eq.refl _))
  rcases key "eA" "eB" hr (Or.inl (Eq.refl _)) with h | h <;> exact absurd h (by decide)

/-- C6 amended: when both units are defined but not connected by any chain
of relations, and the search can never hit an inverted relation with
accumulated value 0 — guaranteed when the requested value is nonzero,
given the builder invariant that all stored factors are nonzero —
`convert` fails with `NoConversionPath` after the search exhausts the
nodes reachable from the source.  (With value 0 it can instead abort with
`DivisionByZero`, as the counterexample shows.) -/
theorem claim6_amended_no_conversion_path :
    ∀ (g : Graph) (v : ℚ) (a b : String),
      NonzeroFactors g → v ≠ 0 →
      (find_node a g).isSome → (find_node b g).isSome →
      ¬ Reaches g a b →
      convert g v a b = .error .NoConversionPath := by
  intro g v a b hnz hv ha hb hnr
  obtain ⟨na, hna⟩ := Option.isSome_iff_exists.mp ha
  obtain ⟨nb, hnb⟩ := Option.isSome_iff_exists.mp hb
  have hcount : unvisitedCount (mark_visited a g) < g.length + 1 :=
    Nat.lt_succ_of_le (le_trans (mark_count_le a g) (count_le_length g))
  obtain ⟨s', hs'⟩ := connect_total (g.length + 1) a b v ⟨g, false, 0⟩ hnz hv hcount
  have hfound : s'.found = false := connect_unreach _ _ _ _ _ _ hs' hnr
  simp [convert, hna, hnb, hs', hfound]

/-- C6 witness: two isolated units convert to `NoConversionPath` for a
nonzero value. -/
theorem claim6_witness :
    convert [⟨"wQ", "q", [], false⟩, ⟨"wP", "p", [], false⟩] 1 "wP" "wQ"
      = .error .NoConversionPath := by
  refine claim6_amended_no_conversion_path _ 1 "wP" "wQ"
    (by decide) (by decide) (by decide) (by decide) ?_
  intro hr
  have key : ∀ x y,
      Reaches [⟨"wQ", "q", [], false⟩, ⟨"wP", "p", [], false⟩] x y →
      x = "wP" → y = "wP" := by
    intro x y h
    induction h with
    | refl z => exact id
    | step t ht hrec ih =>
        intro hx
        rw [hx] at ht
        have he : edgesOf "wP" [⟨"wQ", "q", [], false⟩, ⟨"wP", "p", [], false⟩]
            = [] := by decide
        rw [he] at ht
        cases ht
  exact absurd (key "wP" "wQ" hr (Eq.refl _)) (by decide)

/-- C9: for a directly defined inverted relation `a —(f, INVERT)— b` (the
graph built by registering `a` and `b` and declaring that single relation),
converting any `v ≠ 0` from `a` to `b` yields exactly `f / v`, and a fresh
conversion of that result back from `b` to `a` returns exactly `v` (the
reverse relation stores factor `f` with the inverted flag, and
`f / (f / v) = v` over the exact rationals). -/
theorem claim9_inverted_roundtrip :
    ∀ (la lb a b : String) (f v : ℚ), a ≠ b → f ≠ 0 → v ≠ 0 →
      add_edge a f b true (add_node b lb (add_node a la []))
        = .ok [⟨b, lb, [⟨a, f, true⟩], false⟩, ⟨a, la, [⟨b, f, true⟩], false⟩] ∧
      convert [⟨b, lb, [⟨a, f, true⟩], false⟩,
               ⟨a, la, [⟨b, f, true⟩], false⟩] v a b
        = .ok (f / v, [⟨b, lb, [⟨a, f, true⟩], true⟩,
                       ⟨a, la, [⟨b, f, true⟩], true⟩]) ∧
      convert [⟨b, lb, [⟨a, f, true⟩], false⟩,
               ⟨a, la, [⟨b, f, true⟩], false⟩] (f / v) b a
        = .ok (v, [⟨b, lb, [⟨a, f, true⟩], true⟩,
                   ⟨a, la, [⟨b, f, true⟩], true⟩]) := by
  intro la lb a b f v hab hf hv
  have hba : ¬ b = a := fun h => hab h.symm
  have hab' : (a == b) = false := beq_eq_false_iff_ne.mpr hab
  have hba' : (b == a) = false := beq_eq_false_iff_ne.mpr hba
  have hfv : ¬ f / v = 0 := div_ne_zero hf hv
  have hffv : f / (f / v) = v := by
    rw [div_div_eq_mul_div, mul_div_cancel_left₀ _ hf]
  refine ⟨?_, ?_, ?_⟩
  · simp [add_edge, add_node, find_node, List.find?, hab, hba, hab', hba', hf]
  · simp [convert, connect, connectEdges, edgesOf, find_node, List.find?,
      mark_visited, hab, hba, hab', hba', hv]
  · simp [convert, connect, connectEdges, edgesOf, find_node, List.find?,
      mark_visited, hab, hba, hab', hba', hfv, hffv]

/-- C9 witness: the inverted pair with factor 2 at value 3 gives 2/3 and
back 3. -/
theorem claim9_witness :
    add_edge "a9" 2 "b9" true (add_node "b9" "lb" (add_node "a9" "la" []))
      = .ok [⟨"b9", "lb", [⟨"a9", 2, true⟩], false⟩,
             ⟨"a9", "la", [⟨"b9", 2, true⟩], false⟩] ∧
    convert [⟨"b9", "lb", [⟨"a9", 2, true⟩], false⟩,
             ⟨"a9", "la", [⟨"b9", 2, true⟩], false⟩] 3 "a9" "b9"
      = .ok ((2 : ℚ) / 3, [⟨"b9", "lb", [⟨"a9", 2, true⟩], true⟩,
                           ⟨"a9", "la", [⟨"b9", 2, true⟩], true⟩]) ∧
    convert [⟨"b9", "lb", [⟨"a9", 2, true⟩], false⟩,
             ⟨"a9", "la", [⟨"b9", 2, true⟩], false⟩] ((2 : ℚ) / 3) "b9" "a9"
      = .ok (3, [⟨"b9", "lb", [⟨"a9", 2, true⟩], true⟩,
                 ⟨"a9", "la", [⟨"b9", 2, true⟩], true⟩]) :=
  claim9_inverted_roundtrip "la" "lb" "a9" "b9" 2 3
    (by decide) (by decide) (by decide)

/-- C10: self-conversion is the identity for every graph with nonzero
factors, every defined unit and every nonzero value: the target is found
immediately with the unchanged value, the search continues past it without
overwriting the result, and with `v ≠ 0` no inverted outgoing relation can
abort it.  The second conjunct shows the hypothesis `v ≠ 0` is needed:
with value 0 and an inverted outgoing relation, self-conversion aborts with
`DivisionByZero`. -/
theorem claim10_self_conversion_identity :
    (∀ (g : Graph) (v : ℚ) (A : String) (nd : Node),
        NonzeroFactors g → v ≠ 0 → find_node A g = some nd →
        ∃ g', convert g v A A = .ok (v, g')) ∧
    convert [⟨"uB", "bb", [⟨"uA", 2, true⟩], false⟩,
             ⟨"uA", "aa", [⟨"uB", 2, true⟩], false⟩] 0 "uA" "uA"
      = .error .DivisionByZero := by
  constructor
  · intro g v A nd hnz hv hfind
    have hcount : unvisitedCount (mark_visited A g) < g.length + 1 :=
      Nat.lt_succ_of_le (le_trans (mark_count_le A g) (count_le_length g))
    obtain ⟨s', hs'⟩ := connect_total (g.length + 1) A A v ⟨g, false, 0⟩ hnz hv hcount
    have hs'' := hs'
    simp only [connect, eq_self_iff_true, if_true] at hs''
    have hvis : visitedIn (mark_visited A g) A := mark_visitedIn_self hfind
    obtain ⟨hpf, hpr, _⟩ := connectEdges_stable _ A
      (fun m w s s' hm hvv hr => connect_stable _ m A w s s' hm hvv hr)
      _ _ _ _ hvis hs''
    refine ⟨s'.g, ?_⟩
    simp [convert, hfind, hs', hpf, hpr]
  · simp [convert, connect, connectEdges, edgesOf, find_node, List.find?,
      mark_visited]

/-- C10 witness: self-conversion at value 5 on a unit with an inverted
outgoing relation. -/
theorem claim10_witness :
    ∃ g', convert [⟨"uB", "bb", [⟨"uA", 2, true⟩], false⟩,
                   ⟨"uA", "aa", [⟨"uB", 2, true⟩], false⟩] 5 "uA" "uA"
      = .ok (5, g') :=
  claim10_self_conversion_identity.1 _ 5 "uA"
    ⟨"uA", "aa", [⟨"uB", 2, true⟩], false⟩
    (by decide) (by decide) (by decide)

/-- C1: on a fresh graph, whenever `convert` succeeds its value is exactly
the one accumulated along the first path reaching the target under the
depth-first order that takes each node's adjacency list head-first — and
since `add_edge` pushes new relations at the head (claim C2), that is
most-recently-inserted-relation-first (`spec_first_value` is the spec-side
early-return search).  Moreover, once the target has been reached and a
result recorded (the target is marked visited and `found` is set), the
continuing search never overwrites `found` or `result`. -/
theorem claim1_first_found_path_wins :
    (∀ (g : Graph) (v : ℚ) (a b : String) (r : ℚ) (g' : Graph),
        Fresh g → convert g v a b = .ok (r, g') →
        spec_first_value g v a b = some r) ∧
    (∀ (fuel : Nat) (n1 n2 : String) (val : ℚ) (s s' : St),
        n1 ≠ n2 → visitedIn s.g n2 → connect fuel n1 n2 val s = .ok s' →
        s'.found = s.found ∧ s'.result = s.result) := by
  constructor
  · intro g v a b r g' hfresh hconv
    cases hfa : find_node a g with
    | none =>
        simp only [convert, hfa] at hconv
        exact Except.noConfusion hconv
    | some na =>
        cases hfb : find_node b g with
        | none =>
            simp only [convert, hfa, hfb] at hconv
            exact Except.noConfusion hconv
        | some nb =>
            simp only [convert, hfa, hfb] at hconv
            cases hcon : connect (g.length + 1) a b v ⟨g, false, 0⟩ with
            | error e =>
                simp only [hcon] at hconv
                exact Except.noConfusion hconv
            | ok s1 =>
                simp only [hcon] at hconv
                by_cases hfo : s1.found = true
                · simp only [hfo, if_true] at hconv
                  injection hconv with hconv
                  injection hconv with h1 h2
                  have hnv : ¬ visitedIn g b := by
                    intro ⟨m, hm, hmv⟩
                    rw [hfresh m (find_node_mem hm)] at hmv
                    cases hmv
                  have href := (connect_refine (g.length + 1) a b v
                    ⟨g, false, 0⟩ s1 (Eq.refl _) hnv hcon).1 hfo
                  unfold spec_first_value
                  rw [href, h1]
                · simp only [hfo, if_false] at hconv
                  exact Except.noConfusion hconv
  · intro fuel n1 n2 val s s' hn hvis h
    obtain ⟨h1, h2, _⟩ := connect_stable fuel n1 n2 val s s' hn hvis h
    exact ⟨h1, h2⟩

/-- C1 witness: with two parallel relations from `A` to `B` (factor 2
declared first, factor 5 declared last, so factor 5 is at the head),
`convert 1 A B` returns 5 and so does the spec-side first-found search;
plus a concrete no-overwrite instance. -/
theorem claim1_witness :
    (Fresh [⟨"C", "c", [], false⟩,
            ⟨"B", "b", [⟨"A", 1/5, false⟩, ⟨"A", 1/2, false⟩], false⟩,
            ⟨"A", "a", [⟨"B", 5, false⟩, ⟨"B", 2, false⟩], false⟩] ∧
      spec_first_value
        [⟨"C", "c", [], false⟩,
         ⟨"B", "b", [⟨"A", 1/5, false⟩, ⟨"A", 1/2, false⟩], false⟩,
         ⟨"A", "a", [⟨"B", 5, false⟩, ⟨"B", 2, false⟩], false⟩] 1 "A" "B"
        = some 5) ∧
    ((⟨[⟨"y", "y", [], true⟩], true, 7⟩ : St).found
        = (⟨[⟨"y", "y", [], true⟩], true, 7⟩ : St).found ∧
      (⟨[⟨"y", "y", [], true⟩], true, 7⟩ : St).result
        = (⟨[⟨"y", "y", [], true⟩], true, 7⟩ : St).result) := by
  constructor
  · refine ⟨by decide, ?_⟩
    refine claim1_first_found_path_wins.1 _ 1 "A" "B" 5
      [⟨"C", "c", [], false⟩,
       ⟨"B", "b", [⟨"A", 1/5, false⟩, ⟨"A", 1/2, false⟩], true⟩,
       ⟨"A", "a", [⟨"B", 5, false⟩, ⟨"B", 2, false⟩], true⟩]
      (by decide) ?_
    simp [convert, connect, connectEdges, edgesOf, find_node, List.find?,
      mark_visited]
  · refine claim1_first_found_path_wins.2 1 "x" "y" 3
      ⟨[⟨"y", "y", [], true⟩], true, 7⟩ ⟨[⟨"y", "y", [], true⟩], true, 7⟩
      (by decide) ⟨⟨"y", "y", [], true⟩, by decide, by decide⟩ ?_
    simp [connect, connectEdges, edgesOf, find_node, List.find?, mark_visited]

end ConvertProg
